import Mathlib

/-!
Verification of the distributed lock-manager / queue / cache system
(Raft consensus, lock manager, queue node, cache node, failure detector).

Each definition below is a shallow embedding of the corresponding Python
function, translated line by line from the source.  Machine integers are
modelled as `Nat`/`Int` (Python integers are unbounded); Python `dict`s
keyed by strings are modelled either as total functions into `Option` or
as association lists where iteration/insertion order matters; Python
`set`s of strings are modelled as lists with membership-aware insertion;
timestamps (`time.time()` floats) are modelled as `Nat`/`ℚ` values passed
in explicitly, since only their ordering and differences are used.
-/

namespace Spec2Proof

/-! ## Raft consensus (src/src/consensus/raft.py) -/

/-- Raft node role, `RaftState` in raft.py. -/
inductive RaftState
  | follower
  | candidate
  | leader
  deriving DecidableEq, Repr

/-- Log entry (`LogEntry` in raft.py).  The `command` dict is opaque to the
consensus layer and is modelled as an opaque numeric payload. -/
structure LogEntry where
  term : Nat
  idx : Nat
  command : Nat
  timestamp : Nat
  deriving DecidableEq, Repr

instance : Inhabited LogEntry := ⟨⟨0, 0, 0, 0⟩⟩

/-- State of one `RaftNode` (the fields touched by log replication and
commitment).  `next_index` / `match_index` are dicts with default `0`
(`.get(peer_id, 0)`); they are modelled as total functions.  Python list
indices are 0-based here, exactly as in raft.py (the spec renumbers them
1-based).  `commit_index` can transiently be set to `-1` by
`min(leader_commit, len(log)-1)` on an empty log, hence `Int`. -/
structure RaftNode where
  peers : List String
  currentTerm : Nat
  votedFor : Option String
  log : List LogEntry
  commitIndex : Int
  lastApplied : Int
  state : RaftState
  nextIndex : String → Int
  matchIndex : String → Int
  lastHeartbeat : Nat

/-- Term of `log[n]` for a 0-based index (`self.log[n].term`); out-of-range
reads do not occur at the call sites modelled here. -/
def logTerm (log : List LogEntry) (n : Nat) : Nat :=
  match log.get? n with
  | some e => e.term
  | none => 0

/-- The quorum test of `_update_commit_index`: `count = 1` for self plus one
per peer with `match_index.get(peer_id, 0) >= n`, compared against
`quorum = (len(self.cluster_nodes) + 1) // 2 + 1`. -/
def commitQuorumOk (peers : List String) (matchIndex : String → Int) (n : Nat) : Bool :=
  (peers.length + 1) / 2 + 1 ≤ 1 + peers.countP (fun p => (n : Int) ≤ matchIndex p)

/-- Candidate indices scanned by `_update_commit_index`, i.e.
`range(len(self.log) - 1, self.commit_index, -1)`: the indices
`n > commit_index`, `n < len(log)`, in descending order.  (For
`commit_index ≥ -1`, which holds in every reachable state, this list is
exactly the Python `range`.) -/
def commitCandidates (logLen : Nat) (commitIndex : Int) : List Nat :=
  ((List.range logLen).filter (fun (n : Nat) => commitIndex < (n : Int))).reverse

/-- Net effect of `_apply_committed_entries` on the volatile indices: the
`while self.last_applied < self.commit_index` loop leaves
`last_applied = max(last_applied, commit_index)` (each applied entry is
handed to the state-machine callback, which is external to this layer). -/
def applyCommitted (s : RaftNode) : RaftNode :=
  { s with lastApplied := max s.lastApplied s.commitIndex }

/-- RaftNode._update_commit_index: scan `n` from `len(log)-1` down to
`commit_index+1`; at the first `n` whose entry has the current term and
whose match count reaches quorum, set `commit_index := n`, apply, stop. -/
def updateCommitIndex (s : RaftNode) : RaftNode :=
  if s.state ≠ RaftState.leader then s
  else
    match (commitCandidates s.log.length s.commitIndex).find?
        (fun n => logTerm s.log n == s.currentTerm
          && commitQuorumOk s.peers s.matchIndex n) with
    | some n => applyCommitted { s with commitIndex := (n : Int) }
    | none => s

/-- RaftNode._step_down. -/
def stepDown (s : RaftNode) (newTerm : Nat) (now : Nat) : RaftNode :=
  { s with currentTerm := newTerm, state := RaftState.follower,
           votedFor := none, lastHeartbeat := now }

/-- RaftNode._handle_append_entries_response.  `success` and
`respMatchIndex` are `response.data.get('success', False)` and
`.get('match_index', 0)`. -/
def handleAppendEntriesResponse (s : RaftNode) (now : Nat) (peerId : String)
    (respTerm : Nat) (success : Bool) (respMatchIndex : Int) : RaftNode :=
  if s.currentTerm < respTerm then stepDown s respTerm now
  else if s.state ≠ RaftState.leader then s
  else if success then
    updateCommitIndex
      { s with
        nextIndex := fun p => if p = peerId then respMatchIndex + 1 else s.nextIndex p,
        matchIndex := fun p => if p = peerId then respMatchIndex else s.matchIndex p }
  else
    { s with
      nextIndex := fun p => if p = peerId then max 0 (s.nextIndex p - 1) else s.nextIndex p }

/-- RaftNode._handle_append_entries, the follower side.  Returns the new
node state together with the reply's `(success, match_index)` fields (the
reply's term is the node's unchanged `current_term`).  `prev_log_index`
arrives as an `Int` because the leader sends `next_idx - 1`, which can be
`-1`; the theorems below assume `-1 ≤ prevLogIndex`, the only values the
leader produces (`next_index` is clamped to `max(0, ...)`), so the
`logTerm _ prevLogIndex.toNat` read coincides with Python's
`self.log[prev_log_index]`. -/
def handleAppendEntries (s : RaftNode) (now : Nat) (msgTerm : Nat)
    (prevLogIndex : Int) (prevLogTerm : Nat) (entries : List LogEntry)
    (leaderCommit : Int) : RaftNode × Bool × Int :=
  if msgTerm < s.currentTerm then
    (s, false, 0)
  else
    let s₁ := { s with
      lastHeartbeat := now,
      state := if s.state = RaftState.candidate then RaftState.follower else s.state }
    if prevLogIndex = -1 ∨
        (prevLogIndex < (s₁.log.length : Int)
          ∧ logTerm s₁.log prevLogIndex.toNat = prevLogTerm) then
      let newLog :=
        if entries.isEmpty then s₁.log
        else
          (if prevLogIndex + 1 < (s₁.log.length : Int)
            then s₁.log.take (prevLogIndex + 1).toNat
            else s₁.log) ++ entries
      let matchIdx : Int := prevLogIndex + entries.length
      let s₂ := { s₁ with log := newLog }
      let s₃ :=
        if s₂.commitIndex < leaderCommit then
          applyCommitted
            { s₂ with commitIndex := min leaderCommit ((newLog.length : Int) - 1) }
        else s₂
      (s₃, true, matchIdx)
    else
      (s₁, false, 0)

/-! ## Lock manager (src/src/nodes/lock_manager.py) -/

/-- Lock mode, `LockType` in lock_manager.py. -/
inductive LockType
  | shared
  | exclusive
  deriving DecidableEq, Repr

/-- A queued request (`LockRequest`). -/
structure LockRequest where
  resourceId : String
  lockType : LockType
  clientId : String
  timestamp : Nat
  deriving DecidableEq, Repr

/-- Per-resource lock record (`LockInfo`).  `holders` is a Python `set` of
client ids, modelled as a duplicate-free-by-construction list with
membership-aware insertion. -/
structure LockInfo where
  resourceId : String
  lockType : LockType
  holders : List String
  waiters : List LockRequest
  acquiredAt : Nat
  deriving DecidableEq, Repr

/-- Insertion into a Python `set` modelled as a list (`set.add`). -/
def setAdd (x : String) (l : List String) : List String :=
  if x ∈ l then l else x :: l

/-- Lock-manager state machine: the `locks` dict, the `client_locks` dict of
sets (absent key = empty), and the deadlock detector's `wait_for_graph`
adjacency (absent key = no outgoing edges). -/
structure LMState where
  locks : String → Option LockInfo
  clientLocks : String → List String
  waitForGraph : String → List String

/-- The empty lock-manager state (`LockManager.__init__`). -/
def LMState.initial : LMState :=
  ⟨fun _ => none, fun _ => [], fun _ => []⟩

/-- The `locks` entry read by `_apply_acquire`: a missing entry is first
created with empty `holders`/`waiters` and the requested mode. -/
def lockOrNew (s : LMState) (resourceId : String) (lockType : LockType)
    (timestamp : Nat) : LockInfo :=
  match s.locks resourceId with
  | some l => l
  | none => ⟨resourceId, lockType, [], [], timestamp⟩

/-- LockManager._apply_acquire.  `can_grant` iff `holders` is empty or both
the request and the held mode are SHARED; on grant the client is added to
`holders` and the mode overwritten with the requested mode; otherwise the
request is appended to `waiters` and a wait-for edge added to every
current holder. -/
def applyAcquire (s : LMState) (resourceId : String) (lockType : LockType)
    (clientId : String) (timestamp : Nat) : LMState :=
  let lock₀ := lockOrNew s resourceId lockType timestamp
  let canGrant := lock₀.holders.isEmpty
    || (lockType == LockType.shared && lock₀.lockType == LockType.shared)
  if canGrant then
    { s with
      locks := fun r =>
        if r = resourceId then
          some { lock₀ with holders := setAdd clientId lock₀.holders, lockType := lockType }
        else s.locks r,
      clientLocks := fun c =>
        if c = clientId then setAdd resourceId (s.clientLocks c) else s.clientLocks c }
  else
    { s with
      locks := fun r =>
        if r = resourceId then
          some { lock₀ with waiters := lock₀.waiters ++ [⟨resourceId, lockType, clientId, timestamp⟩] }
        else s.locks r,
      waitForGraph := fun c =>
        if c = clientId then lock₀.holders.foldl (fun acc h => setAdd h acc) (s.waitForGraph c)
        else s.waitForGraph c }

/-- Stable insertion of a request into a timestamp-sorted list: the new
request goes after every request with a smaller-or-equal timestamp. -/
def insertSorted (x : LockRequest) : List LockRequest → List LockRequest
  | [] => [x]
  | y :: ys =>
    if y.timestamp ≤ x.timestamp then y :: insertSorted x ys else x :: y :: ys

/-- Model of `lock.waiters.sort(key=lambda x: x.timestamp)`: a stable sort
by timestamp (Python's `list.sort` is stable). -/
def sortWaiters (l : List LockRequest) : List LockRequest :=
  l.foldl (fun acc x => insertSorted x acc) []

/-- LockManager._apply_release.  Discard the client from `holders`, drop the
resource from its `client_locks` set, remove wait-for edges to the
remaining holders; if `holders` is now empty and `waiters` nonempty, sort
the waiters by timestamp, pop the first and re-run `_apply_acquire` for it
(which grants it, the holder set being empty).  The `locks` entry is never
deleted. -/
def applyRelease (s : LMState) (resourceId : String) (clientId : String) : LMState :=
  match s.locks resourceId with
  | none => s
  | some lock =>
    let holders' := lock.holders.filter (fun h => h != clientId)
    let s₁ : LMState :=
      { s with
        locks := fun r =>
          if r = resourceId then some { lock with holders := holders' } else s.locks r,
        clientLocks := fun c =>
          if c = clientId then (s.clientLocks c).filter (fun r => r != resourceId)
          else s.clientLocks c,
        waitForGraph := fun c =>
          if c = clientId then
            holders'.foldl (fun acc h => acc.filter (fun x => x != h)) (s.waitForGraph c)
          else s.waitForGraph c }
    if holders'.isEmpty && !lock.waiters.isEmpty then
      match sortWaiters lock.waiters with
      | [] => s₁
      | first :: rest =>
        let s₂ : LMState :=
          { s₁ with
            locks := fun r =>
              if r = resourceId then some { lock with holders := holders', waiters := rest }
              else s.locks r }
        applyAcquire s₂ first.resourceId first.lockType first.clientId first.timestamp
    else s₁

/-- A committed lock command (`_apply_lock_operation`). -/
inductive LockCmd
  | acquire (resourceId : String) (lockType : LockType) (clientId : String) (timestamp : Nat)
  | release (resourceId : String) (clientId : String)
  deriving DecidableEq, Repr

/-- LockManager._apply_lock_operation. -/
def applyLockOperation (s : LMState) (cmd : LockCmd) : LMState :=
  match cmd with
  | .acquire r t c ts => applyAcquire s r t c ts
  | .release r c => applyRelease s r c

/-- Apply a sequence of committed lock commands starting from the empty
table. -/
def runLockCmds (cmds : List LockCmd) : LMState :=
  cmds.foldl applyLockOperation LMState.initial

/-! ## Queue node (src/src/nodes/queue_node.py) -/

/-- Queue message (`Message` in queue_node.py).  `data` is an opaque
payload.  `timestamp` is the creation time (`field(default_factory=
time.time)` at `produce`).  `deliveredTs` is a ghost field recording when
`consume` handed the message to a consumer; the Python code stores no
such field (the spec calls it `delivered_ts`), and no operation below
reads it — it exists only so that claims about delivery time can be
stated. -/
structure Message where
  messageId : String
  partition : Int
  data : Nat
  timestamp : Nat
  attempts : Nat
  delivered : Bool
  deliveredTs : Nat
  deriving DecidableEq, Repr

/-- Queue-node state: `partitions` is a `defaultdict(list)` keyed by the
partition number, `pending_acks` a dict `ack_key → Message` modelled as an
association list in insertion order. -/
structure QueueState where
  nodeId : String
  partitions : Int → List Message
  pendingAcks : List (String × Message)
  statsProduced : Nat
  statsConsumed : Nat
  statsRedelivered : Nat

/-- Fresh queue node (`QueueNode.__init__`). -/
def QueueState.initial (nodeId : String) : QueueState :=
  ⟨nodeId, fun _ => [], [], 0, 0, 0⟩

/-- Python dict assignment `d[k] = v` on an association list: replace the
binding in place if the key exists, else append. -/
def dictInsert (k : String) (v : Message) (l : List (String × Message)) :
    List (String × Message) :=
  if l.any (fun kv => kv.1 == k) then
    l.map (fun kv => if kv.1 == k then (k, v) else kv)
  else l ++ [(k, v)]

/-- Python dict deletion `del d[k]` on an association list. -/
def dictErase (k : String) (l : List (String × Message)) : List (String × Message) :=
  l.filter (fun kv => kv.1 != k)

/-- ConsistentHash.get_node on an already-built ring: the ring is the list
of `(hash, node)` pairs in ascending hash order (`sorted_keys`); return
the first node whose hash is `≥` the key's hash, wrapping around to the
first node.  The md5 key hash is passed in as `keyHash`. -/
def getNode (sortedRing : List (Nat × String)) (keyHash : Nat) : Option String :=
  match sortedRing.find? (fun kv => keyHash ≤ kv.1) with
  | some kv => some kv.2
  | none => sortedRing.head?.map (fun kv => kv.2)

/-- QueueNode._get_partition: `hash(node) % Config.QUEUE_PARTITIONS`.
`md5Hash` models `ConsistentHash._hash` (md5 of the key) and `pyHash`
models Python's builtin `hash` on the returned node (or `None`), which can
be negative; Python `%` on a positive modulus is Euclidean, as is
`Int.emod`. -/
def getPartition (sortedRing : List (Nat × String)) (md5Hash : String → Nat)
    (pyHash : Option String → Int) (queuePartitions : Nat) (key : String) : Int :=
  pyHash (getNode sortedRing (md5Hash key)) % (queuePartitions : Int)

/-- QueueNode.produce.  With a `partition_key` the partition comes from the
consistent-hash ring; otherwise it is `stats['produced'] %
Config.QUEUE_PARTITIONS` (round robin).  The message is appended to its
partition and the message id returned (persistence and metrics are
external effects). -/
def produce (sortedRing : List (Nat × String)) (md5Hash : String → Nat)
    (pyHash : Option String → Int) (queuePartitions : Nat) (s : QueueState)
    (data : Nat) (partitionKey : Option String) (now : Nat) : QueueState × String :=
  let messageId := s.nodeId ++ ":" ++ toString now ++ ":" ++ toString s.statsProduced
  let partition : Int :=
    match partitionKey with
    | some k => getPartition sortedRing md5Hash pyHash queuePartitions k
    | none => (s.statsProduced : Int) % (queuePartitions : Int)
  let message : Message := ⟨messageId, partition, data, now, 0, false, 0⟩
  ({ s with
      partitions := fun p =>
        if p = partition then s.partitions p ++ [message] else s.partitions p,
      statsProduced := s.statsProduced + 1 },
    messageId)

/-- QueueNode.consume, one poll of the wait loop: if the partition is
nonempty pop its head, bump `attempts`, and record the message under
`ack_key = f"{consumer_id}:{message_id}"` in `pending_acks`; an empty
partition models the timeout path returning `None`.  `now` is the wall
clock at delivery and is stored only in the ghost `deliveredTs`. -/
def consume (s : QueueState) (partition : Int) (consumerId : String) (now : Nat) :
    QueueState × Option Message :=
  match s.partitions partition with
  | [] => (s, none)
  | m :: rest =>
    let m' := { m with attempts := m.attempts + 1, deliveredTs := now }
    let ackKey := consumerId ++ ":" ++ m'.messageId
    ({ s with
        partitions := fun p => if p = partition then rest else s.partitions p,
        pendingAcks := dictInsert ackKey m' s.pendingAcks,
        statsConsumed := s.statsConsumed + 1 },
      some m')

/-- QueueNode.acknowledge: if `ack_key` is pending, mark the message
delivered, delete the entry and report `True`; otherwise report `False`
(the Redis deletion is an external effect). -/
def acknowledge (s : QueueState) (consumerId : String) (messageId : String) :
    QueueState × Bool :=
  let ackKey := consumerId ++ ":" ++ messageId
  match s.pendingAcks.lookup ackKey with
  | some _ => ({ s with pendingAcks := dictErase ackKey s.pendingAcks }, true)
  | none => (s, false)

/-- The staleness test of `_check_redelivery`:
`now - message.timestamp > timeout` with `timeout = 30.0`; note that
`message.timestamp` is the message's creation time. -/
def ackExpired (now : Nat) (m : Message) : Bool :=
  30 < (now : Int) - (m.timestamp : Int)

/-- Body of the redelivery loop for one expired ack key: look the message
up, delete the pending entry and reinsert the message at the head of its
partition. -/
def requeueOne (st : QueueState) (ackKey : String) : QueueState :=
  match st.pendingAcks.lookup ackKey with
  | none => st
  | some m =>
    { st with
      pendingAcks := dictErase ackKey st.pendingAcks,
      partitions := fun p =>
        if p = m.partition then m :: st.partitions p else st.partitions p,
      statsRedelivered := st.statsRedelivered + 1 }

/-- One scan of QueueNode._check_redelivery: collect the ack keys of the
expired pending entries in dict order, then requeue each in turn. -/
def checkRedeliveryStep (s : QueueState) (now : Nat) : QueueState :=
  let expired := (s.pendingAcks.filter (fun kv => ackExpired now kv.2)).map (fun kv => kv.1)
  expired.foldl requeueOne s

/-! ## Cache node (src/src/nodes/cache_node.py) -/

/-- MESI state (`CacheState` in cache_node.py). -/
inductive MesiState
  | modified
  | exclusiveLine
  | sharedLine
  | invalid
  deriving DecidableEq, Repr

/-- A cache line (`CacheLine`).  `__post_init__` forces `dirty = True` when
the state is MODIFIED; `mkCacheLine` below models construction with the
default arguments. -/
structure CacheLine where
  key : String
  value : Nat
  state : MesiState
  timestamp : Nat
  accessCount : Nat
  dirty : Bool
  deriving DecidableEq, Repr

/-- CacheLine(key, value, state, timestamp) with default `access_count=0`,
`dirty=False`, then `__post_init__`. -/
def mkCacheLine (key : String) (value : Nat) (state : MesiState) (timestamp : Nat) :
    CacheLine :=
  ⟨key, value, state, timestamp, 0, state == MesiState.modified⟩

/-- LRU cache (`LRUCache`): an `OrderedDict` whose front is the
least-recently-used entry and whose back is the most-recently-used.
The constructor sets `capacity_bytes = capacity_mb * 1024 * 1024`; the
eviction logic reads only `capacity_bytes`. -/
structure LRUCache where
  capacityBytes : Nat
  cache : List (String × CacheLine)
  deriving DecidableEq, Repr

/-- LRUCache(capacity_mb). -/
def LRUCache.init (capacityMb : Nat) : LRUCache :=
  ⟨capacityMb * 1024 * 1024, []⟩

/-- State effect of `LRUCache.get` on a hit: `move_to_end` plus
`access_count += 1` (a miss changes nothing). -/
def LRUCache.touch (c : LRUCache) (key : String) : LRUCache :=
  match c.cache.lookup key with
  | none => c
  | some line =>
    { c with cache := c.cache.filter (fun kv => kv.1 != key)
        ++ [(key, { line with accessCount := line.accessCount + 1 })] }

/-- The dict update step of `LRUCache.put` before eviction: pop any
existing binding of the key, then bind it at the most-recently-used end
(`self.cache[key] = line; self.cache.move_to_end(key)`). -/
def dictPutMRU (cache : List (String × CacheLine)) (key : String) (line : CacheLine) :
    List (String × CacheLine) :=
  (if cache.any (fun kv => kv.1 == key) then cache.filter (fun kv => kv.1 != key)
   else cache) ++ [(key, line)]

/-- The eviction loop of `LRUCache.put`:
`while len(cache) > 0 and len(cache) * 1024 > capacity_bytes: popitem(last=False)`
(`_estimate_size` is `len(cache) * 1024`).  Returns the surviving entries
and the evicted ones, least-recently-used first. -/
def evictWhile (capacityBytes : Nat) :
    List (String × CacheLine) → List (String × CacheLine) × List (String × CacheLine)
  | [] => ([], [])
  | x :: xs =>
    if capacityBytes < (x :: xs).length * 1024 then
      let r := evictWhile capacityBytes xs
      (r.1, x :: r.2)
    else (x :: xs, [])

/-- LRUCache.put.  The second component is the list of evicted entries (the
Python method logs and discards them; they are returned here so that
eviction can be observed). -/
def LRUCache.put (c : LRUCache) (key : String) (line : CacheLine) :
    LRUCache × List (String × CacheLine) :=
  let r := evictWhile c.capacityBytes (dictPutMRU c.cache key line)
  ({ c with cache := r.1 }, r.2)

/-- A command submitted to Raft by the cache layer
(`raft.submit_command` payloads of cache_node.py). -/
inductive CacheCmd
  | write (key : String) (value : Nat) (nodeId : String)
  | invalidate (key : String) (sourceNode : String)
  | register (key : String) (nodeId : String)
  deriving DecidableEq, Repr

/-- The fields of `CacheNode` that the write path touches.  `key_locations`
is a dict of sets (`Dict[str, Set[str]]`). -/
structure CacheNodeState where
  nodeId : String
  cache : LRUCache
  keyLocations : String → Option (List String)
  isLeader : Bool

/-- CacheNode._invalidate_others, as the list of commands it submits: none
when the key has no registered locations or no location other than this
node; otherwise (on the leader) one `invalidate` command. -/
def invalidateOthers (st : CacheNodeState) (key : String) : List CacheCmd :=
  match st.keyLocations key with
  | none => []
  | some locs =>
    let others := locs.filter (fun n => n != st.nodeId)
    if others.isEmpty then []
    else if st.isLeader then [CacheCmd.invalidate key st.nodeId] else []

/-- CacheNode._register_location, as the list of commands it submits. -/
def registerLocation (st : CacheNodeState) (key : String) : List CacheCmd :=
  if st.isLeader then [CacheCmd.register key st.nodeId] else []

/-- CacheNode._write_back, as the list of commands it submits. -/
def writeBack (st : CacheNodeState) (key : String) (value : Nat) : List CacheCmd :=
  if st.isLeader then [CacheCmd.write key value st.nodeId] else []

/-- CacheNode.write: on the leader, touch the line (`self.cache.get(key)` —
the result is unused but the access reorders the LRU), invalidate other
copies, build the MODIFIED line and `put` it (evicting silently if over
budget), submit the `write` command, register the location.  Returns the
new state, every command submitted in order, and the success flag. -/
def cacheWrite (st : CacheNodeState) (key : String) (value : Nat) (now : Nat) :
    CacheNodeState × List CacheCmd × Bool :=
  if !st.isLeader then (st, [], false)
  else
    let c₁ := st.cache.touch key
    let invCmds := invalidateOthers st key
    let newLine : CacheLine := ⟨key, value, MesiState.modified, now, 0, true⟩
    let pr := c₁.put key newLine
    ({ st with cache := pr.1 }, invCmds ++ [CacheCmd.write key value st.nodeId]
        ++ registerLocation st key, true)

/-! ## Failure detector (src/src/communication/failure_detector.py) -/

/-- Result of `FailureDetector.phi`: either `float('inf')` or a finite
value.  The finite general-case value (a normal-CDF log-score over the
recorded intervals) is real-valued; it is supplied by the `phiCalc`
parameter below, since only the two sparse-history branches are at issue
here. -/
inductive PhiValue
  | inf
  | fin (x : ℚ)
  deriving DecidableEq, Repr

/-- Python `phi_value < threshold` (in particular `inf < t` is `False`). -/
def PhiValue.ltThreshold : PhiValue → ℚ → Bool
  | .inf, _ => false
  | .fin x, t => x < t

/-- FailureDetector state: `heartbeat_history` maps a node id to its deque
of inter-arrival intervals (`none` = key absent), `last_heartbeat` to the
time of its last heartbeat. -/
structure FailureDetector where
  threshold : ℚ
  heartbeatHistory : String → Option (List ℚ)
  lastHeartbeat : String → Option ℚ
  suspectedNodes : List String

/-- FailureDetector.phi: `inf` when the node has no recorded heartbeat;
`0.0` when its history is absent or holds fewer than two intervals;
otherwise the accrual score computed from the intervals and the time
since the last heartbeat (the float computation, abstracted as `phiCalc`). -/
def phi (phiCalc : List ℚ → ℚ → ℚ) (fd : FailureDetector) (nodeId : String)
    (now : ℚ) : PhiValue :=
  match fd.lastHeartbeat nodeId with
  | none => PhiValue.inf
  | some last =>
    match fd.heartbeatHistory nodeId with
    | none => PhiValue.fin 0
    | some intervals =>
      if intervals.length < 2 then PhiValue.fin 0
      else PhiValue.fin (phiCalc intervals (now - last))

/-- FailureDetector.is_available: `phi(node_id) < threshold` (the
bookkeeping of `suspected_nodes` does not affect the returned value). -/
def isAvailable (phiCalc : List ℚ → ℚ → ℚ) (fd : FailureDetector) (nodeId : String)
    (now : ℚ) : Bool :=
  (phi phiCalc fd nodeId now).ltThreshold fd.threshold

/-! ## Derived predicates and concrete fixtures -/

/-- The commit-advance condition of `_update_commit_index` for an index
`n`, relative to a match-index assignment `matchIdx`: `n` lies strictly
between `commit_index` and `len(log)`, the entry at `n` carries the
current term, and the quorum test passes. -/
def commitAdvanceGood (s : RaftNode) (matchIdx : String → Int) (n : Nat) : Prop :=
  s.commitIndex < (n : Int) ∧ n < s.log.length ∧
    logTerm s.log n = s.currentTerm ∧ commitQuorumOk s.peers matchIdx n = true

instance (s : RaftNode) (matchIdx : String → Int) (n : Nat) :
    Decidable (commitAdvanceGood s matchIdx n) := by
  unfold commitAdvanceGood; exact inferInstance

/-- Lock safety: whenever a resource's mode is EXCLUSIVE, it has at most
one holder. -/
def ExclusiveSafe (s : LMState) : Prop :=
  ∀ r info, s.locks r = some info → info.lockType = LockType.exclusive →
    info.holders.length ≤ 1

/-- A follower with a two-entry log, all terms 1 (used to exercise
`_handle_append_entries`). -/
def raftFollowerNode : RaftNode :=
  ⟨[], 1, none, [⟨1, 0, 0, 0⟩, ⟨1, 1, 0, 0⟩], 0, 0, RaftState.follower,
    fun _ => 0, fun _ => 0, 0⟩

/-- A leader of a three-node cluster with a two-entry log, `commit_index`
0, peer `p2` already matched up to index 1 (used to exercise
`_handle_append_entries_response`). -/
def raftLeaderNode : RaftNode :=
  ⟨["p1", "p2"], 1, none, [⟨1, 0, 0, 0⟩, ⟨1, 1, 0, 0⟩], 0, 0, RaftState.leader,
    fun _ => 2, fun p => if p = "p2" then 1 else 0, 0⟩

/-- A cache node holding three lines, the least-recently-used one in state
MODIFIED, with a byte budget that forces two evictions on the next put. -/
def cacheFixture : CacheNodeState :=
  ⟨"n1",
    ⟨2048,
      [("a", ⟨"a", 7, MesiState.modified, 0, 0, true⟩),
       ("b", ⟨"b", 8, MesiState.exclusiveLine, 0, 0, false⟩),
       ("c", ⟨"c", 9, MesiState.sharedLine, 0, 0, false⟩)]⟩,
    fun _ => none, true⟩

/-- A failure detector with the default threshold 8.0 that has heard one
heartbeat from node `b` (empty interval history) and nothing from any
other node. -/
def fdFixture : FailureDetector :=
  ⟨8, fun n => if n = "b" then some [] else none,
    fun n => if n = "b" then some 5 else none, []⟩

/-- A queue node with a single pending ack. -/
def queueFixture : QueueState :=
  { QueueState.initial "n" with
      pendingAcks := [("c:m", ⟨"m", 0, 1, 0, 1, false, 0⟩)] }

/-! ## Theorems -/

/-- C9: for a peer with no recorded heartbeat, `phi` is `inf` and
`is_available` returns `False`; for a peer with a recorded last heartbeat
but fewer than two recorded inter-arrival intervals, `phi` is `0.0` and
`is_available` returns `True` (threshold positive, default `8.0`),
regardless of how much time has elapsed since that heartbeat. -/
theorem phiSparseHistory (phiCalc : List ℚ → ℚ → ℚ) (fd : FailureDetector)
    (nodeId : String) (now : ℚ) (hthr : 0 < fd.threshold) :
    (fd.lastHeartbeat nodeId = none →
      phi phiCalc fd nodeId now = PhiValue.inf ∧
        isAvailable phiCalc fd nodeId now = false) ∧
    (∀ last, fd.lastHeartbeat nodeId = some last →
      (fd.heartbeatHistory nodeId = none ∨
        ∃ intervals, fd.heartbeatHistory nodeId = some intervals ∧
          intervals.length < 2) →
      phi phiCalc fd nodeId now = PhiValue.fin 0 ∧
        isAvailable phiCalc fd nodeId now = true) := by
  constructor
  · intro hnone
    simp [phi, isAvailable, hnone, PhiValue.ltThreshold]
  · intro last hlast hhist
    rcases hhist with hnone | ⟨intervals, hsome, hlen⟩
    · simp [phi, isAvailable, hlast, hnone, PhiValue.ltThreshold, hthr]
    · simp [phi, isAvailable, hlast, hsome, hlen, PhiValue.ltThreshold, hthr]

/-- Witness for `phiSparseHistory`: a detector that has heard a single
heartbeat from node `b` (so one `last_heartbeat` record, zero intervals)
and nothing from node `z`. -/
theorem phiSparseHistory_witness :
    isAvailable (fun _ _ => 0) fdFixture "z" 1000000 = false ∧
    isAvailable (fun _ _ => 0) fdFixture "b" 1000000 = true := by
  have h1 := (phiSparseHistory (fun _ _ => 0) fdFixture "z" 1000000
    (by norm_num [fdFixture])).1
  have h2 := (phiSparseHistory (fun _ _ => 0) fdFixture "b" 1000000
    (by norm_num [fdFixture])).2
  refine ⟨(h1 (by simp [fdFixture])).2, ?_⟩
  exact (h2 5 (by simp [fdFixture]) (Or.inr ⟨[], by simp [fdFixture], by simp⟩)).2

/-- C7: `acknowledge` returns `True` and removes the pending-ack entry
exactly when the ack key `f"{consumer_id}:{message_id}"` is pending; it
never touches the partitions, and on an unknown message it returns
`False` leaving the whole state unchanged. -/
theorem acknowledgeSpec (s : QueueState) (consumerId messageId : String) :
    ((acknowledge s consumerId messageId).2 = true ↔
      (s.pendingAcks.lookup (consumerId ++ ":" ++ messageId)).isSome) ∧
    ((acknowledge s consumerId messageId).2 = true →
      (acknowledge s consumerId messageId).1.pendingAcks
          = dictErase (consumerId ++ ":" ++ messageId) s.pendingAcks ∧
        (acknowledge s consumerId messageId).1.partitions = s.partitions) ∧
    ((acknowledge s consumerId messageId).2 = false →
      (acknowledge s consumerId messageId).1 = s) := by
  cases h : s.pendingAcks.lookup (consumerId ++ ":" ++ messageId) <;>
    simp [acknowledge, h]

/-- Witness for `acknowledgeSpec`: acking the pending pair removes it and
reports `True`. -/
theorem acknowledgeSpec_witness :
    (acknowledge queueFixture "c" "m").2 = true :=
  ((acknowledgeSpec queueFixture "c" "m").1).mpr (by decide)

/-- C10: `produce` assigns a partition in `[0, QUEUE_PARTITIONS)` whenever
`QUEUE_PARTITIONS > 0` — via the consistent-hash route when a
`partition_key` is given (even for a negative Python `hash`), via round
robin on `stats['produced']` otherwise — and appends the new message,
whose `partition` field equals the assigned value, to exactly that
partition. -/
theorem produceSpec (sortedRing : List (Nat × String)) (md5Hash : String → Nat)
    (pyHash : Option String → Int) (queuePartitions : Nat) (s : QueueState)
    (data : Nat) (partitionKey : Option String) (now : Nat)
    (hP : 0 < queuePartitions) :
    ∃ part : Int, 0 ≤ part ∧ part < (queuePartitions : Int) ∧
      ∃ m : Message, m.partition = part ∧
        (produce sortedRing md5Hash pyHash queuePartitions s data partitionKey
            now).1.partitions part = s.partitions part ++ [m] ∧
        ∀ q, q ≠ part →
          (produce sortedRing md5Hash pyHash queuePartitions s data partitionKey
              now).1.partitions q = s.partitions q := by
  have hP' : (queuePartitions : Int) ≠ 0 := by exact_mod_cast hP.ne'
  have hPpos : (0 : Int) < (queuePartitions : Int) := by exact_mod_cast hP
  cases partitionKey with
  | none =>
    refine ⟨(s.statsProduced : Int) % (queuePartitions : Int),
      Int.emod_nonneg _ hP', Int.emod_lt_of_pos _ hPpos,
      ⟨s.nodeId ++ ":" ++ toString now ++ ":" ++ toString s.statsProduced,
        (s.statsProduced : Int) % (queuePartitions : Int), data, now, 0, false, 0⟩,
      rfl, by simp [produce], fun q hq => by simp [produce, hq]⟩
  | some k =>
    refine ⟨getPartition sortedRing md5Hash pyHash queuePartitions k,
      Int.emod_nonneg _ hP', Int.emod_lt_of_pos _ hPpos,
      ⟨s.nodeId ++ ":" ++ toString now ++ ":" ++ toString s.statsProduced,
        getPartition sortedRing md5Hash pyHash queuePartitions k, data, now, 0,
        false, 0⟩,
      rfl, by simp [produce], fun q hq => by simp [produce, hq]⟩

/-- Witness for `produceSpec`: a one-virtual-node ring, a md5 stub and a
negative Python hash still land in `[0, 16)`. -/
theorem produceSpec_witness :
    ∃ part : Int, 0 ≤ part ∧ part < (16 : Nat) ∧
      ∃ m : Message, m.partition = part ∧
        (produce [(5, "n1")] (fun _ => 3) (fun _ => -7) 16
            (QueueState.initial "n") 1 (some "k") 0).1.partitions part =
          (QueueState.initial "n").partitions part ++ [m] ∧
        ∀ q, q ≠ part →
          (produce [(5, "n1")] (fun _ => 3) (fun _ => -7) 16
              (QueueState.initial "n") 1 (some "k") 0).1.partitions q =
            (QueueState.initial "n").partitions q :=
  produceSpec [(5, "n1")] (fun _ => 3) (fun _ => -7) 16
    (QueueState.initial "n") 1 (some "k") 0 (by norm_num)

/-- `_apply_acquire` preserves exclusive-lock safety: a grant with a
nonempty holder set forces both modes SHARED, and a grant of an EXCLUSIVE
request happens only on an empty holder set. -/
theorem exclusiveSafe_applyAcquire (s : LMState) (r : String) (t : LockType)
    (c : String) (ts : Nat) (hs : ExclusiveSafe s) :
    ExclusiveSafe (applyAcquire s r t c ts) := by
  intro r' info' hlook hexcl
  simp only [applyAcquire] at hlook
  split_ifs at hlook with hg
  · -- granted
    simp only at hlook
    by_cases hr : r' = r
    · rw [if_pos hr] at hlook
      injection hlook with h'
      subst h'
      cases t with
      | shared => exact absurd hexcl (by simp)
      | exclusive =>
        have hemp : (lockOrNew s r LockType.exclusive ts).holders.isEmpty := by
          simpa using hg
        have h0 : (lockOrNew s r LockType.exclusive ts).holders = [] :=
          List.isEmpty_iff.mp hemp
        simp [setAdd, h0]
    · rw [if_neg hr] at hlook
      exact hs r' info' hlook hexcl
  · -- queued as waiter: holders and mode unchanged
    simp only at hlook
    by_cases hr : r' = r
    · rw [if_pos hr] at hlook
      injection hlook with h'
      subst h'
      cases hl : s.locks r with
      | none => simp [lockOrNew, hl]
      | some l =>
        have hlt : l.lockType = LockType.exclusive := by
          simpa [lockOrNew, hl] using hexcl
        simpa [lockOrNew, hl] using hs r l hl hlt
    · rw [if_neg hr] at hlook
      exact hs r' info' hlook hexcl

/-- `_apply_release` preserves exclusive-lock safety: discarding a holder
only shrinks the holder set, and a promoted waiter is granted on an empty
holder set. -/
theorem exclusiveSafe_applyRelease (s : LMState) (r c : String)
    (hs : ExclusiveSafe s) : ExclusiveSafe (applyRelease s r c) := by
  unfold applyRelease
  cases hl : s.locks r with
  | none => exact hs
  | some lock =>
    dsimp only
    have hshrunk : lock.lockType = LockType.exclusive →
        (lock.holders.filter (fun h => h != c)).length ≤ 1 := fun hlt =>
      le_trans (List.length_filter_le _ _) (hs r lock hl hlt)
    split_ifs with hcond
    · rcases hms : sortWaiters lock.waiters with _ | ⟨first, rest⟩
      · intro r' info' hlook hexcl
        simp only at hlook
        by_cases hr : r' = r
        · rw [if_pos hr] at hlook
          injection hlook with h'
          subst h'
          exact hshrunk hexcl
        · rw [if_neg hr] at hlook
          exact hs r' info' hlook hexcl
      · apply exclusiveSafe_applyAcquire
        intro r' info' hlook hexcl
        simp only at hlook
        by_cases hr : r' = r
        · rw [if_pos hr] at hlook
          injection hlook with h'
          subst h'
          exact hshrunk hexcl
        · rw [if_neg hr] at hlook
          exact hs r' info' hlook hexcl
    · intro r' info' hlook hexcl
      simp only at hlook
      by_cases hr : r' = r
      · rw [if_pos hr] at hlook
        injection hlook with h'
        subst h'
        exact hshrunk hexcl
      · rw [if_neg hr] at hlook
        exact hs r' info' hlook hexcl

/-- Exclusive-lock safety is preserved along any command sequence. -/
theorem exclusiveSafe_run (cmds : List LockCmd) (s : LMState)
    (hs : ExclusiveSafe s) : ExclusiveSafe (cmds.foldl applyLockOperation s) := by
  induction cmds generalizing s with
  | nil => exact hs
  | cons cmd rest ih =>
    apply ih
    cases cmd with
    | acquire r t c ts => exact exclusiveSafe_applyAcquire s r t c ts hs
    | release r c => exact exclusiveSafe_applyRelease s r c hs

/-- C3: in every lock-table state reachable from the empty table by
acquire/release commands, a resource whose mode is EXCLUSIVE has at most
one holder. -/
theorem lockExclusiveSafety (cmds : List LockCmd) (r : String) (info : LockInfo)
    (h : (runLockCmds cmds).locks r = some info)
    (hexcl : info.lockType = LockType.exclusive) :
    info.holders.length ≤ 1 := by
  have hinit : ExclusiveSafe LMState.initial := by
    intro r' info' hlook
    simp [LMState.initial] at hlook
  exact exclusiveSafe_run cmds LMState.initial hinit r info h hexcl

/-- Witness for `lockExclusiveSafety`: after a single EXCLUSIVE acquire the
resource has mode EXCLUSIVE and exactly the one holder. -/
theorem lockExclusiveSafety_witness : (["A"] : List String).length ≤ 1 :=
  lockExclusiveSafety [LockCmd.acquire "r" LockType.exclusive "A" 1] "r"
    ⟨"r", LockType.exclusive, ["A"], [], 1⟩ (by decide) rfl

theorem mem_insertSorted {x y : LockRequest} {l : List LockRequest} :
    y ∈ insertSorted x l ↔ y = x ∨ y ∈ l := by
  induction l with
  | nil => simp [insertSorted]
  | cons z zs ih =>
    simp only [insertSorted]
    split_ifs with h
    · simp only [List.mem_cons, ih]
      tauto
    · simp [List.mem_cons]

theorem length_insertSorted (x : LockRequest) (l : List LockRequest) :
    (insertSorted x l).length = l.length + 1 := by
  induction l with
  | nil => rfl
  | cons z zs ih =>
    simp only [insertSorted]
    split_ifs with h
    · simp [ih]
    · simp

theorem sorted_insertSorted {x : LockRequest} {l : List LockRequest}
    (hl : l.Pairwise (fun a b => a.timestamp ≤ b.timestamp)) :
    (insertSorted x l).Pairwise (fun a b => a.timestamp ≤ b.timestamp) := by
  induction l with
  | nil => simp [insertSorted]
  | cons z zs ih =>
    simp only [insertSorted]
    rcases hl with - | ⟨hz, hzs⟩
    split_ifs with h
    · refine List.Pairwise.cons ?_ (ih hzs)
      intro b hb
      rcases mem_insertSorted.mp hb with rfl | hb'
      · exact h
      · exact hz b hb'
    · refine List.Pairwise.cons ?_ (List.Pairwise.cons hz hzs)
      intro b hb
      rcases List.mem_cons.mp hb with rfl | hb'
      · omega
      · exact le_trans (le_of_not_le h) (hz b hb')

theorem sortWaitersAux_mem (l : List LockRequest) :
    ∀ (acc : List LockRequest) (y : LockRequest),
      y ∈ l.foldl (fun acc x => insertSorted x acc) acc ↔ y ∈ acc ∨ y ∈ l := by
  induction l with
  | nil => simp
  | cons z zs ih =>
    intro acc y
    simp only [List.foldl_cons, ih, mem_insertSorted, List.mem_cons]
    tauto

theorem sortWaitersAux_length (l : List LockRequest) :
    ∀ acc : List LockRequest,
      (l.foldl (fun acc x => insertSorted x acc) acc).length = acc.length + l.length := by
  induction l with
  | nil => simp
  | cons z zs ih =>
    intro acc
    simp only [List.foldl_cons, ih, length_insertSorted, List.length_cons]
    omega

theorem sortWaitersAux_sorted (l : List LockRequest) :
    ∀ acc : List LockRequest,
      acc.Pairwise (fun a b => a.timestamp ≤ b.timestamp) →
      (l.foldl (fun acc x => insertSorted x acc) acc).Pairwise
        (fun a b => a.timestamp ≤ b.timestamp) := by
  induction l with
  | nil => exact fun _ h => h
  | cons z zs ih =>
    intro acc hacc
    exact ih _ (sorted_insertSorted hacc)

theorem mem_sortWaiters {y : LockRequest} {l : List LockRequest} :
    y ∈ sortWaiters l ↔ y ∈ l := by
  simp [sortWaiters, sortWaitersAux_mem]

theorem length_sortWaiters (l : List LockRequest) :
    (sortWaiters l).length = l.length := by
  simp [sortWaiters, sortWaitersAux_length]

theorem sorted_sortWaiters (l : List LockRequest) :
    (sortWaiters l).Pairwise (fun a b => a.timestamp ≤ b.timestamp) :=
  sortWaitersAux_sorted l [] List.Pairwise.nil

theorem sortWaiters_head_min {l rest : List LockRequest} {first : LockRequest}
    (h : sortWaiters l = first :: rest) :
    first ∈ l ∧ ∀ x ∈ l, first.timestamp ≤ x.timestamp := by
  have hmem : first ∈ l := mem_sortWaiters.mp (h ▸ List.mem_cons_self first rest)
  refine ⟨hmem, fun x hx => ?_⟩
  have hx' : x ∈ first :: rest := h ▸ mem_sortWaiters.mpr hx
  rcases List.mem_cons.mp hx' with rfl | hx''
  · exact le_refl _
  · have hsorted := sorted_sortWaiters l
    rw [h] at hsorted
    exact (List.pairwise_cons.mp hsorted).1 x hx''

/-- C4 counterexample: with client `A` holding `r` SHARED and client `B`
waiting for EXCLUSIVE access since time 2, the SHARED acquire by `C` at
the later time 3 is granted anyway — `_apply_acquire` checks only the
modes, never the waiter queue — so the EXCLUSIVE waiter is overtaken by
a SHARED request enqueued strictly later, refuting the claim. -/
theorem writerFairnessCex :
    (runLockCmds [LockCmd.acquire "r" LockType.shared "A" 1,
        LockCmd.acquire "r" LockType.exclusive "B" 2]).locks "r" =
      some ⟨"r", LockType.shared, ["A"], [⟨"r", LockType.exclusive, "B", 2⟩], 1⟩ ∧
    (applyAcquire (runLockCmds [LockCmd.acquire "r" LockType.shared "A" 1,
        LockCmd.acquire "r" LockType.exclusive "B" 2]) "r" LockType.shared "C" 3).locks
        "r" =
      some ⟨"r", LockType.shared, ["C", "A"], [⟨"r", LockType.exclusive, "B", 2⟩], 1⟩ := by
  decide

/-- C4 amended: a SHARED acquire on a resource held in SHARED mode is
granted unconditionally, *regardless* of any EXCLUSIVE waiters already in
the queue (hence EXCLUSIVE waiters can be overtaken by later SHARED
requests; the code has no FIFO-fairness check). -/
theorem sharedGrantIgnoresExclusiveWaiters (s : LMState) (r c : String) (ts : Nat)
    (info : LockInfo) (h : s.locks r = some info)
    (hsh : info.lockType = LockType.shared) :
    (applyAcquire s r LockType.shared c ts).locks r =
      some { info with holders := setAdd c info.holders,
                       lockType := LockType.shared } := by
  have hlock : lockOrNew s r LockType.shared ts = info := by
    simp [lockOrNew, h]
  simp only [applyAcquire, hlock]
  rw [if_pos (by simp [hsh])]
  simp

/-- Witness for `sharedGrantIgnoresExclusiveWaiters`: a second SHARED
client joins the holder set. -/
theorem sharedGrantIgnoresExclusiveWaiters_witness :
    (applyAcquire (runLockCmds [LockCmd.acquire "r" LockType.shared "A" 1]) "r"
        LockType.shared "C" 3).locks "r" =
      some ⟨"r", LockType.shared, ["C", "A"], [], 1⟩ := by
  have h := sharedGrantIgnoresExclusiveWaiters
    (runLockCmds [LockCmd.acquire "r" LockType.shared "A" 1]) "r" "C" 3
    ⟨"r", LockType.shared, ["A"], [], 1⟩ (by decide) rfl
  exact h.trans (by decide)

/-- C5 counterexample: releasing the EXCLUSIVE holder of `r` while two
SHARED requests wait promotes only the first of them — `B` becomes the
sole holder and `C` keeps waiting, not the claimed maximal SHARED prefix
`{B, C}` — and (second divergence) releasing a sole holder with no
waiters leaves an empty `locks` entry in place instead of deleting it. -/
theorem releasePromotesOnlyFirstCex :
    (runLockCmds [LockCmd.acquire "r" LockType.exclusive "A" 1,
        LockCmd.acquire "r" LockType.shared "B" 2,
        LockCmd.acquire "r" LockType.shared "C" 3,
        LockCmd.release "r" "A"]).locks "r" =
      some ⟨"r", LockType.shared, ["B"], [⟨"r", LockType.shared, "C", 3⟩], 1⟩ ∧
    (runLockCmds [LockCmd.acquire "q" LockType.exclusive "A" 1,
        LockCmd.release "q" "A"]).locks "q" =
      some ⟨"q", LockType.exclusive, [], [], 1⟩ := by
  decide

/-- C5 amended: `_apply_release` removes the client from `holders`; if the
holder set becomes empty and waiters exist, only the single earliest
waiter (minimal timestamp) is promoted, the mode becoming its requested
mode; the `locks` entry is never deleted (in particular an entry with
empty holders and waiters stays in the table). -/
theorem releaseSpec (s : LMState) (r c : String) (info : LockInfo)
    (h : s.locks r = some info)
    (hres : ∀ w ∈ info.waiters, w.resourceId = r) :
    ∃ info', (applyRelease s r c).locks r = some info' ∧
      (¬(info.holders.filter (fun x => x != c) = [] ∧ info.waiters ≠ []) →
        info' = { info with holders := info.holders.filter (fun x => x != c) }) ∧
      ((info.holders.filter (fun x => x != c) = [] ∧ info.waiters ≠ []) →
        ∃ w, w ∈ info.waiters ∧
          (∀ w' ∈ info.waiters, w.timestamp ≤ w'.timestamp) ∧
          info'.holders = [w.clientId] ∧ info'.lockType = w.lockType ∧
          info'.waiters.length + 1 = info.waiters.length) := by
  unfold applyRelease
  rw [h]
  dsimp only
  split_ifs with hcond
  · -- promotion branch
    rw [Bool.and_eq_true, List.isEmpty_iff, Bool.not_eq_true',
      List.isEmpty_eq_false] at hcond
    obtain ⟨hempty, hwne⟩ := hcond
    rcases hsort : sortWaiters info.waiters with _ | ⟨first, rest⟩
    · exfalso
      have hlen := length_sortWaiters info.waiters
      rw [hsort] at hlen
      exact hwne (List.length_eq_zero.mp hlen.symm)
    · obtain ⟨hfmem, hfmin⟩ := sortWaiters_head_min hsort
      have hfr : first.resourceId = r := hres first hfmem
      refine ⟨⟨info.resourceId, first.lockType, [first.clientId], rest,
          info.acquiredAt⟩, ?_, ?_, ?_⟩
      · simp only [applyAcquire, lockOrNew, hfr]
        rw [if_pos (by simp [hempty])]
        simp [hempty, setAdd]
      · intro hn
        exact absurd ⟨hempty, hwne⟩ hn
      · intro _
        refine ⟨first, hfmem, hfmin, rfl, rfl, ?_⟩
        have hlen := length_sortWaiters info.waiters
        rw [hsort] at hlen
        simpa using hlen
  · -- no promotion: only the holder set shrinks; the entry stays
    refine ⟨{ info with holders := info.holders.filter (fun x => x != c) },
      by simp, fun _ => rfl, fun hctr => ?_⟩
    exfalso
    apply hcond
    rw [Bool.and_eq_true, List.isEmpty_iff, Bool.not_eq_true',
      List.isEmpty_eq_false]
    exact hctr

/-- Witness for `releaseSpec`: releasing the EXCLUSIVE holder with one
SHARED waiter promotes that waiter. -/
theorem releaseSpec_witness :
    ∃ info',
      (applyRelease (runLockCmds [LockCmd.acquire "r" LockType.exclusive "A" 1,
          LockCmd.acquire "r" LockType.shared "B" 2]) "r" "A").locks "r" =
        some info' ∧
      (¬((["A"] : List String).filter (fun x => x != "A") = [] ∧
          ([⟨"r", LockType.shared, "B", 2⟩] : List LockRequest) ≠ []) →
        info' = { resourceId := "r", lockType := LockType.exclusive,
                  holders := (["A"] : List String).filter (fun x => x != "A"),
                  waiters := [⟨"r", LockType.shared, "B", 2⟩], acquiredAt := 1 }) ∧
      (((["A"] : List String).filter (fun x => x != "A") = [] ∧
          ([⟨"r", LockType.shared, "B", 2⟩] : List LockRequest) ≠ []) →
        ∃ w, w ∈ ([⟨"r", LockType.shared, "B", 2⟩] : List LockRequest) ∧
          (∀ w' ∈ ([⟨"r", LockType.shared, "B", 2⟩] : List LockRequest),
            w.timestamp ≤ w'.timestamp) ∧
          info'.holders = [w.clientId] ∧ info'.lockType = w.lockType ∧
          info'.waiters.length + 1 =
            ([⟨"r", LockType.shared, "B", 2⟩] : List LockRequest).length) :=
  releaseSpec (runLockCmds [LockCmd.acquire "r" LockType.exclusive "A" 1,
      LockCmd.acquire "r" LockType.shared "B" 2]) "r" "A"
    ⟨"r", LockType.exclusive, ["A"], [⟨"r", LockType.shared, "B", 2⟩], 1⟩
    (by decide) (by decide)

theorem evictWhile_append (cap : Nat) (l : List (String × CacheLine)) :
    (evictWhile cap l).2 ++ (evictWhile cap l).1 = l := by
  induction l with
  | nil => rfl
  | cons x xs ih =>
    simp only [evictWhile]
    split_ifs with h
    · simpa using ih
    · simp

theorem evictWhile_budget (cap : Nat) (l : List (String × CacheLine)) :
    (evictWhile cap l).1.length * 1024 ≤ cap ∨ (evictWhile cap l).1 = [] := by
  induction l with
  | nil => exact Or.inr rfl
  | cons x xs ih =>
    simp only [evictWhile]
    split_ifs with h
    · simpa using ih
    · exact Or.inl (by simpa using le_of_not_lt h)

/-- C8 counterexample: a leader cache holding lines `a` (MODIFIED), `b`,
`c` within a 2048-byte budget writes a new key `d`; the put evicts the
two least-recently-used lines `a` and `b`, and the full list of commands
proposed by the write contains no `write_back` carrying `a`'s key and
value — the MODIFIED line is silently discarded, refuting the claim. -/
theorem evictionWriteBackCex :
    (("a", (⟨"a", 7, MesiState.modified, 0, 0, true⟩ : CacheLine)) ∈
      cacheFixture.cache.cache) ∧
    (cacheWrite cacheFixture "d" 5 99).1.cache.cache =
      [("c", ⟨"c", 9, MesiState.sharedLine, 0, 0, false⟩),
       ("d", ⟨"d", 5, MesiState.modified, 99, 0, true⟩)] ∧
    (cacheWrite cacheFixture "d" 5 99).2.1 =
      [CacheCmd.write "d" 5 "n1", CacheCmd.register "d" "n1"] ∧
    CacheCmd.write "a" 7 "n1" ∉ (cacheWrite cacheFixture "d" 5 99).2.1 := by
  decide

/-- C8 amended: eviction removes entries from the least-recently-used end
(the evicted entries are exactly a leading segment of the dict order, and
eviction stops once the estimated size fits the byte budget), but no
`write_back` is ever proposed for an evicted line, MODIFIED or not: the
only commands a `write` proposes are the invalidation, the `write` of the
key being written, and the location registration (`write_back` is issued
only by `invalidate`, not by eviction). -/
theorem evictionSpec (st : CacheNodeState) (key : String) (value : Nat)
    (now : Nat) (hl : st.isLeader = true) :
    ((st.cache.touch key).put key ⟨key, value, MesiState.modified, now, 0, true⟩).2 ++
        ((st.cache.touch key).put key
          ⟨key, value, MesiState.modified, now, 0, true⟩).1.cache =
      dictPutMRU (st.cache.touch key).cache key
        ⟨key, value, MesiState.modified, now, 0, true⟩ ∧
    (((st.cache.touch key).put key
        ⟨key, value, MesiState.modified, now, 0, true⟩).1.cache.length * 1024 ≤
          st.cache.capacityBytes ∨
      ((st.cache.touch key).put key
        ⟨key, value, MesiState.modified, now, 0, true⟩).1.cache = []) ∧
    (cacheWrite st key value now).1.cache =
      ((st.cache.touch key).put key ⟨key, value, MesiState.modified, now, 0, true⟩).1 ∧
    (∀ e ∈ ((st.cache.touch key).put key
        ⟨key, value, MesiState.modified, now, 0, true⟩).2,
      e.1 ≠ key →
        ∀ v nid, CacheCmd.write e.1 v nid ∉ (cacheWrite st key value now).2.1) := by
  have htouch : ((st.cache.touch key).capacityBytes) = st.cache.capacityBytes := by
    unfold LRUCache.touch
    cases st.cache.cache.lookup key <;> rfl
  refine ⟨?_, ?_, ?_, ?_⟩
  · simp only [LRUCache.put]
    exact evictWhile_append _ _
  · simp only [LRUCache.put]
    rw [← htouch]
    exact evictWhile_budget _ _
  · simp [cacheWrite, hl]
  · intro e he hek v nid hmem
    have hcmds : (cacheWrite st key value now).2.1
        = invalidateOthers st key ++ [CacheCmd.write key value st.nodeId]
          ++ registerLocation st key := by
      simp [cacheWrite, hl]
    rw [hcmds] at hmem
    rcases List.mem_append.mp hmem with hmem' | hreg
    · rcases List.mem_append.mp hmem' with hinv | hwr
      · unfold invalidateOthers at hinv
        rcases hkl : st.keyLocations key with - | locs
        · rw [hkl] at hinv
          simp at hinv
        · rw [hkl] at hinv
          split_ifs at hinv
          simp at hinv
      · have := List.mem_singleton.mp hwr
        exact hek (by injection this)
    · unfold registerLocation at hreg
      split_ifs at hreg
      simp at hreg

/-- Witness for `evictionSpec` at the concrete cache state of the
counterexample. -/
theorem evictionSpec_witness :
    ((cacheFixture.cache.touch "d").put "d"
        ⟨"d", 5, MesiState.modified, 99, 0, true⟩).2 ++
        ((cacheFixture.cache.touch "d").put "d"
          ⟨"d", 5, MesiState.modified, 99, 0, true⟩).1.cache =
      dictPutMRU (cacheFixture.cache.touch "d").cache "d"
        ⟨"d", 5, MesiState.modified, 99, 0, true⟩ ∧
    (((cacheFixture.cache.touch "d").put "d"
        ⟨"d", 5, MesiState.modified, 99, 0, true⟩).1.cache.length * 1024 ≤
          cacheFixture.cache.capacityBytes ∨
      ((cacheFixture.cache.touch "d").put "d"
        ⟨"d", 5, MesiState.modified, 99, 0, true⟩).1.cache = []) ∧
    (cacheWrite cacheFixture "d" 5 99).1.cache =
      ((cacheFixture.cache.touch "d").put "d"
        ⟨"d", 5, MesiState.modified, 99, 0, true⟩).1 ∧
    (∀ e ∈ ((cacheFixture.cache.touch "d").put "d"
        ⟨"d", 5, MesiState.modified, 99, 0, true⟩).2,
      e.1 ≠ "d" →
        ∀ v nid, CacheCmd.write e.1 v nid ∉ (cacheWrite cacheFixture "d" 5 99).2.1) :=
  evictionSpec cacheFixture "d" 5 99 rfl

/-- C2 counterexample: a follower whose log is `[e₀, e₁]` (both term 1)
accepts a heartbeat (`entries = []`, `prev_log_index = 0` in the code's
0-based indexing, i.e. the first real entry) but does *not* truncate the
suffix after `prev_log_index`: the log keeps both entries, while the
claim mandates truncation to `log[:prev_log_index+1] ++ entries`,
which would be the one-entry log. -/
theorem appendEntriesTruncationCex :
    (handleAppendEntries raftFollowerNode 100 1 0 1 [] 0).2.1 = true ∧
    (handleAppendEntries raftFollowerNode 100 1 0 1 [] 0).1.log =
      [⟨1, 0, 0, 0⟩, ⟨1, 1, 0, 0⟩] ∧
    (handleAppendEntries raftFollowerNode 100 1 0 1 [] 0).1.log ≠
      raftFollowerNode.log.take (((0 : Int) + 1).toNat) ++ ([] : List LogEntry) := by
  decide

/-- C2 amended: the follower accepts iff `msg.term ≥ current_term` and
either `prev_log_index` is the sentinel (`-1` in the code's 0-based
indexing; the spec's 1-based `0`) or the local entry at `prev_log_index`
exists and has term `prev_log_term`.  On accept it resets the election
timer and replies `success=true, match_index = prev_log_index +
len(entries)`; the log is truncated at `prev_log_index+1` and extended
*only when `entries` is nonempty* (a heartbeat leaves the log intact),
and `commit_index` is raised to `min(leader_commit, len(log)-1)` — the
last index of the *whole* resulting log, not of the new entries — when
`leader_commit` exceeds it.  On reject the log and `commit_index` are
unchanged and the reply is `success=false`. -/
theorem appendEntriesSpec (s : RaftNode) (now msgTerm : Nat) (prevLogIndex : Int)
    (prevLogTerm : Nat) (entries : List LogEntry) (leaderCommit : Int)
    (hprev : -1 ≤ prevLogIndex) :
    ((handleAppendEntries s now msgTerm prevLogIndex prevLogTerm entries
        leaderCommit).2.1 = true ↔
      (s.currentTerm ≤ msgTerm ∧ (prevLogIndex = -1 ∨
        (prevLogIndex < (s.log.length : Int) ∧
          logTerm s.log prevLogIndex.toNat = prevLogTerm)))) ∧
    ((s.currentTerm ≤ msgTerm ∧ (prevLogIndex = -1 ∨
        (prevLogIndex < (s.log.length : Int) ∧
          logTerm s.log prevLogIndex.toNat = prevLogTerm))) →
      (handleAppendEntries s now msgTerm prevLogIndex prevLogTerm entries
          leaderCommit).1.log =
        (if entries.isEmpty then s.log
          else s.log.take (prevLogIndex + 1).toNat ++ entries) ∧
      (handleAppendEntries s now msgTerm prevLogIndex prevLogTerm entries
          leaderCommit).2.2 = prevLogIndex + entries.length ∧
      (handleAppendEntries s now msgTerm prevLogIndex prevLogTerm entries
          leaderCommit).1.lastHeartbeat = now ∧
      (handleAppendEntries s now msgTerm prevLogIndex prevLogTerm entries
          leaderCommit).1.commitIndex =
        (if s.commitIndex < leaderCommit
          then min leaderCommit
            (((handleAppendEntries s now msgTerm prevLogIndex prevLogTerm entries
                leaderCommit).1.log.length : Int) - 1)
          else s.commitIndex)) ∧
    (¬(s.currentTerm ≤ msgTerm ∧ (prevLogIndex = -1 ∨
        (prevLogIndex < (s.log.length : Int) ∧
          logTerm s.log prevLogIndex.toNat = prevLogTerm))) →
      (handleAppendEntries s now msgTerm prevLogIndex prevLogTerm entries
          leaderCommit).1.log = s.log ∧
      (handleAppendEntries s now msgTerm prevLogIndex prevLogTerm entries
          leaderCommit).1.commitIndex = s.commitIndex ∧
      (handleAppendEntries s now msgTerm prevLogIndex prevLogTerm entries
          leaderCommit).2.1 = false) := by
  by_cases ht : msgTerm < s.currentTerm
  · have hr : handleAppendEntries s now msgTerm prevLogIndex prevLogTerm entries
        leaderCommit = (s, false, 0) := by
      simp [handleAppendEntries, ht]
    have hna : ¬(s.currentTerm ≤ msgTerm ∧ (prevLogIndex = -1 ∨
        (prevLogIndex < (s.log.length : Int) ∧
          logTerm s.log prevLogIndex.toNat = prevLogTerm))) :=
      fun hc => absurd ht (not_lt.mpr hc.1)
    rw [hr]
    exact ⟨by simpa using hna, fun hc => absurd hc hna, fun _ => ⟨rfl, rfl, rfl⟩⟩
  · by_cases hg : prevLogIndex = -1 ∨ (prevLogIndex < (s.log.length : Int) ∧
        logTerm s.log prevLogIndex.toNat = prevLogTerm)
    · have hacc : s.currentTerm ≤ msgTerm ∧ (prevLogIndex = -1 ∨
          (prevLogIndex < (s.log.length : Int) ∧
            logTerm s.log prevLogIndex.toNat = prevLogTerm)) := ⟨not_lt.mp ht, hg⟩
      refine ⟨?_, fun _ => ⟨?_, ?_, ?_, ?_⟩, fun hn => absurd hacc hn⟩
      · refine iff_of_true ?_ hacc
        simp only [handleAppendEntries, if_neg ht]
        rw [if_pos (by simpa using hg)]
      · simp only [handleAppendEntries, if_neg ht]
        rw [if_pos (by simpa using hg)]
        split_ifs <;> simp [applyCommitted] <;> omega
      · simp only [handleAppendEntries, if_neg ht]
        rw [if_pos (by simpa using hg)]
      · simp only [handleAppendEntries, if_neg ht]
        rw [if_pos (by simpa using hg)]
        split_ifs <;> simp [applyCommitted]
      · simp only [handleAppendEntries, if_neg ht]
        rw [if_pos (by simpa using hg)]
        split_ifs <;> simp [applyCommitted]
    · have hna : ¬(s.currentTerm ≤ msgTerm ∧ (prevLogIndex = -1 ∨
          (prevLogIndex < (s.log.length : Int) ∧
            logTerm s.log prevLogIndex.toNat = prevLogTerm))) :=
        fun hc => hg hc.2
      have hr : handleAppendEntries s now msgTerm prevLogIndex prevLogTerm entries
          leaderCommit = ({ s with lastHeartbeat := now, state := if s.state = RaftState.candidate then RaftState.follower else s.state }, false, 0) := by
        simp only [handleAppendEntries, if_neg ht]
        rw [if_neg (by simpa using hg)]
      rw [hr]
      exact ⟨by simpa using hna, fun hc => absurd hc hna, fun _ => ⟨rfl, rfl, rfl⟩⟩

/-- Witness for `appendEntriesSpec`: the heartbeat of the counterexample
state, accepted with `match_index = 0`. -/
theorem appendEntriesSpec_witness :
    (handleAppendEntries raftFollowerNode 100 1 0 1 [] 0).2.1 = true := by
  have h := appendEntriesSpec raftFollowerNode 100 1 0 1 [] 0 (by norm_num)
  exact h.1.mpr (by decide)

/-- Membership in the scanned index range of `_update_commit_index`. -/
theorem mem_commitCandidates {len : Nat} {ci : Int} {n : Nat} :
    n ∈ commitCandidates len ci ↔ ci < (n : Int) ∧ n < len := by
  simp [commitCandidates, List.mem_reverse, List.mem_filter, List.mem_range]
  tauto

/-- The scanned index range is strictly descending. -/
theorem commitCandidates_sorted (len : Nat) (ci : Int) :
    (commitCandidates len ci).Pairwise (fun a b => b < a) := by
  unfold commitCandidates
  rw [List.pairwise_reverse]
  exact (List.pairwise_lt_range len).filter _

/-- On a strictly descending list, `find?` returns the largest element
satisfying the predicate. -/
theorem find?_descending_max {l : List Nat} (hs : l.Pairwise (fun a b => b < a))
    {p : Nat → Bool} {n : Nat} (h : l.find? p = some n) :
    ∀ m ∈ l, p m = true → m ≤ n := by
  induction l with
  | nil => simp at h
  | cons a t ih =>
    intro m hm hpm
    rcases List.mem_cons.mp hm with rfl | hmt
    · by_cases hpa : p m
      · rw [List.find?_cons_of_pos _ hpa] at h
        injection h with h1
        exact le_of_eq h1
      · exact absurd hpm hpa
    · by_cases hpa : p a
      · rw [List.find?_cons_of_pos _ hpa] at h
        injection h with h1
        subst h1
        exact le_of_lt ((List.pairwise_cons.mp hs).1 m hmt)
      · rw [List.find?_cons_of_neg _ hpa] at h
        exact ih (List.pairwise_cons.mp hs).2 h m hmt hpm

/-- C1: on the leader, after a successful AppendEntries response from
`peerId` reporting `match_index = respMatchIndex` (with a response term
not above the leader's), `commit_index` moves to the largest index `N >
commit_index` whose entry has the current term and is matched by a quorum
(counting the leader itself) under the updated `match_index` map; if no
such index exists it is unchanged; and it never moves to an index whose
entry's term differs from `current_term`. -/
theorem raftLeaderCommitAdvance (s : RaftNode) (now : Nat) (peerId : String)
    (respTerm : Nat) (respMatchIndex : Int)
    (hleader : s.state = RaftState.leader) (hterm : respTerm ≤ s.currentTerm) :
    ((∃ n, commitAdvanceGood s
        (fun p => if p = peerId then respMatchIndex else s.matchIndex p) n) →
      ∃ n : Nat, (handleAppendEntriesResponse s now peerId respTerm true
          respMatchIndex).commitIndex = (n : Int) ∧
        commitAdvanceGood s
          (fun p => if p = peerId then respMatchIndex else s.matchIndex p) n ∧
        ∀ m, commitAdvanceGood s
          (fun p => if p = peerId then respMatchIndex else s.matchIndex p) m →
          m ≤ n) ∧
    ((¬ ∃ n, commitAdvanceGood s
        (fun p => if p = peerId then respMatchIndex else s.matchIndex p) n) →
      (handleAppendEntriesResponse s now peerId respTerm true
        respMatchIndex).commitIndex = s.commitIndex) ∧
    ((handleAppendEntriesResponse s now peerId respTerm true
        respMatchIndex).commitIndex ≠ s.commitIndex →
      ∃ n : Nat, (handleAppendEntriesResponse s now peerId respTerm true
          respMatchIndex).commitIndex = (n : Int) ∧
        logTerm s.log n = s.currentTerm) := by
  have hred : handleAppendEntriesResponse s now peerId respTerm true respMatchIndex
      = updateCommitIndex
        { s with
          nextIndex := fun p => if p = peerId then respMatchIndex + 1
            else s.nextIndex p,
          matchIndex := fun p => if p = peerId then respMatchIndex
            else s.matchIndex p } := by
    unfold handleAppendEntriesResponse
    rw [if_neg (not_lt.mpr hterm), if_neg (by simp [hleader]), if_pos rfl]
  rw [hred]
  unfold updateCommitIndex
  rw [if_neg (by simp [hleader])]
  simp only
  cases hf : (commitCandidates s.log.length s.commitIndex).find?
      (fun n => logTerm s.log n == s.currentTerm
        && commitQuorumOk s.peers
          (fun p => if p = peerId then respMatchIndex else s.matchIndex p) n) with
  | none =>
    have hnone : ∀ n, ¬ commitAdvanceGood s
        (fun p => if p = peerId then respMatchIndex else s.matchIndex p) n := by
      intro n hgood
      obtain ⟨h1, h2, h3, h4⟩ := hgood
      exact absurd (by simp [h3, h4])
        (List.find?_eq_none.mp hf n (mem_commitCandidates.mpr ⟨h1, h2⟩))
    exact ⟨fun ⟨n, hg⟩ => absurd hg (hnone n), fun _ => rfl,
      fun hne => absurd rfl hne⟩
  | some n =>
    have hp := List.find?_some hf
    have hmem := mem_commitCandidates.mp (List.mem_of_find?_eq_some hf)
    rw [Bool.and_eq_true, beq_iff_eq] at hp
    have hgood : commitAdvanceGood s
        (fun p => if p = peerId then respMatchIndex else s.matchIndex p) n :=
      ⟨hmem.1, hmem.2, hp.1, hp.2⟩
    have hmax : ∀ m, commitAdvanceGood s
        (fun p => if p = peerId then respMatchIndex else s.matchIndex p) m →
        m ≤ n := by
      intro m hgm
      obtain ⟨h1, h2, h3, h4⟩ := hgm
      exact find?_descending_max (commitCandidates_sorted _ _) hf m
        (mem_commitCandidates.mpr ⟨h1, h2⟩) (by simp [h3, h4])
    refine ⟨fun _ => ⟨n, by simp [applyCommitted], hgood, hmax⟩,
      fun hne => absurd ⟨n, hgood⟩ hne,
      fun _ => ⟨n, by simp [applyCommitted], hp.1⟩⟩

/-- Witness for `raftLeaderCommitAdvance`: on the concrete three-node
leader, the response `match_index = 1` from `p1` commits index 1. -/
theorem raftLeaderCommitAdvance_witness :
    (handleAppendEntriesResponse raftLeaderNode 5 "p1" 1 true 1).commitIndex = 1 := by
  have h := raftLeaderCommitAdvance raftLeaderNode 5 "p1" 1 1 rfl (by decide)
  obtain ⟨n, hci, hgood, hmax⟩ := h.1 ⟨1, by decide⟩
  have h1 : 1 ≤ n := hmax 1 (by decide)
  have h2 : n < raftLeaderNode.log.length := hgood.2.1
  have h2' : n < 2 := by simpa [raftLeaderNode] using h2
  have hn : n = 1 := by omega
  rw [hn] at hci
  simpa using hci

/-- First-binding lookup on an association list with distinct keys. -/
theorem lookup_of_mem_nodupKeys {l : List (String × Message)} {k : String}
    {m : Message} (hnd : (l.map (fun kv => kv.1)).Nodup) (hm : (k, m) ∈ l) :
    l.lookup k = some m := by
  induction l with
  | nil => simp at hm
  | cons a t ih =>
    simp only [List.map_cons] at hnd
    have hnd' := List.nodup_cons.mp hnd
    rcases List.mem_cons.mp hm with heq | hmt
    · rw [← heq]
      simp [List.lookup]
    · obtain ⟨a1, a2⟩ := a
      have hk : k ∈ t.map (fun kv => kv.1) := List.mem_map.mpr ⟨(k, m), hmt, rfl⟩
      have hne : (k == a1) = false := by
        refine beq_eq_false_iff_ne.mpr ?_
        intro h
        exact hnd'.1 (h ▸ hk)
      simp [List.lookup, hne, ih hnd'.2 hmt]

/-- Characterization of the redelivery fold: requeueing a duplicate-free
batch of pending entries drops exactly their keys from `pending_acks` and
pushes their messages onto the heads of their partitions (latest expired
entry in front). -/
theorem requeueFold_spec (E : List (String × Message)) :
    ∀ st : QueueState,
      (st.pendingAcks.map (fun kv => kv.1)).Nodup →
      ((E.map (fun kv => kv.1)).Nodup) →
      (∀ e ∈ E, e ∈ st.pendingAcks) →
      ((E.map (fun kv => kv.1)).foldl requeueOne st).pendingAcks
          = st.pendingAcks.filter
            (fun kv => !(E.map (fun kv => kv.1)).contains kv.1) ∧
      ∀ p : Int, ((E.map (fun kv => kv.1)).foldl requeueOne st).partitions p
          = ((E.filter (fun e => e.2.partition == p)).map (fun e => e.2)).reverse
            ++ st.partitions p := by
  induction E with
  | nil =>
    intro st _ _ _
    exact ⟨by simp, fun p => by simp⟩
  | cons e E' ih =>
    obtain ⟨k, m⟩ := e
    intro st hnd hEnd hE
    have hlk : st.pendingAcks.lookup k = some m :=
      lookup_of_mem_nodupKeys hnd (hE (k, m) (List.mem_cons_self _ _))
    have hst₁pend : (requeueOne st k).pendingAcks
        = st.pendingAcks.filter (fun kv => kv.1 != k) := by
      simp [requeueOne, hlk, dictErase]
    have hst₁part : ∀ p, (requeueOne st k).partitions p
        = if p = m.partition then m :: st.partitions p else st.partitions p := by
      intro p
      simp [requeueOne, hlk]
    simp only [List.map_cons] at hEnd
    have hEnd' := List.nodup_cons.mp hEnd
    have hnd₁ : ((requeueOne st k).pendingAcks.map (fun kv => kv.1)).Nodup := by
      rw [hst₁pend]
      exact List.Nodup.sublist ((List.filter_sublist _).map _) hnd
    have hE' : ∀ e ∈ E', e ∈ (requeueOne st k).pendingAcks := by
      intro e he
      rw [hst₁pend]
      refine List.mem_filter.mpr ⟨hE e (List.mem_cons_of_mem _ he), ?_⟩
      have hne : e.1 ≠ k := fun h => hEnd'.1 (List.mem_map.mpr ⟨e, he, h⟩)
      simpa [bne_iff_ne] using hne
    obtain ⟨ihp, ihq⟩ := ih (requeueOne st k) hnd₁ hEnd'.2 hE'
    refine ⟨?_, ?_⟩
    · simp only [List.map_cons, List.foldl_cons]
      rw [ihp, hst₁pend, List.filter_filter]
      refine List.filter_congr ?_
      intro kv _
      simp [List.contains_cons, Bool.not_or, Bool.and_comm, bne]
    · intro p
      simp only [List.map_cons, List.foldl_cons]
      rw [ihq p, hst₁part p]
      by_cases hp : m.partition = p
      · simp [List.filter_cons, hp, List.reverse_cons, List.append_assoc]
      · have hp' : p ≠ m.partition := fun h => hp h.symm
        simp [List.filter_cons, hp, hp']

/-- C6 amended: one scan of `_check_redelivery` requeues a pending entry
exactly when `now - message.timestamp > 30` where `timestamp` is the
message's *creation* time (set at `produce`), not its delivery time: the
entry is dropped from `pending_acks` and the message reinserted at the
head of its partition; entries whose message is younger than 30 s stay
pending untouched, regardless of when they were delivered. -/
theorem redeliverySpec (s : QueueState) (now : Nat)
    (hnd : (s.pendingAcks.map (fun kv => kv.1)).Nodup) :
    (checkRedeliveryStep s now).pendingAcks
        = s.pendingAcks.filter (fun kv => !(ackExpired now kv.2)) ∧
    ∀ p : Int, (checkRedeliveryStep s now).partitions p
        = (((s.pendingAcks.filter (fun kv => ackExpired now kv.2)).filter
              (fun kv => kv.2.partition == p)).map (fun kv => kv.2)).reverse
          ++ s.partitions p := by
  have hsub : ((s.pendingAcks.filter (fun kv => ackExpired now kv.2)).map
      (fun kv => kv.1)).Nodup :=
    List.Nodup.sublist ((List.filter_sublist _).map _) hnd
  have hmem : ∀ e ∈ s.pendingAcks.filter (fun kv => ackExpired now kv.2),
      e ∈ s.pendingAcks := fun e he => List.mem_of_mem_filter he
  obtain ⟨hp, hq⟩ := requeueFold_spec
    (s.pendingAcks.filter (fun kv => ackExpired now kv.2)) s hnd hsub hmem
  refine ⟨?_, hq⟩
  rw [show (checkRedeliveryStep s now)
      = ((s.pendingAcks.filter (fun kv => ackExpired now kv.2)).map
        (fun kv => kv.1)).foldl requeueOne s from rfl]
  rw [hp]
  refine List.filter_congr ?_
  intro kv hkv
  have hcm : (((s.pendingAcks.filter (fun kv => ackExpired now kv.2)).map
      (fun kv => kv.1)).contains kv.1) = ackExpired now kv.2 := by
    by_cases hx : ackExpired now kv.2 = true
    · rw [hx]
      refine List.elem_iff.mpr ?_
      exact List.mem_map.mpr ⟨kv, List.mem_filter.mpr ⟨hkv, hx⟩, rfl⟩
    · rw [Bool.eq_false_iff.mpr hx]
      refine Bool.eq_false_iff.mpr ?_
      intro hc
      obtain ⟨kv', hkv'f, hkey⟩ := List.mem_map.mp (List.elem_iff.mp hc)
      have hkv'mem := List.mem_of_mem_filter hkv'f
      have hexp := (List.mem_filter.mp hkv'f).2
      have hkk : kv' = kv := List.inj_on_of_nodup_map hnd hkv'mem hkv hkey
      rw [hkk] at hexp
      exact hx hexp
  rw [hcm]

/-- C6 counterexample: a message produced at time 0 and consumed
(delivered) at time 35 is requeued by the scan at time 36 — its pending
entry is dropped and it is back at the head of partition 0 — even though
only 1 s (< 30 s) has passed since delivery: `_check_redelivery` compares
`now` with the message's *creation* timestamp, never with a delivery
time, refuting the claim. -/
theorem redeliveryDeliveredCex :
    (consume (produce [] (fun _ => 0) (fun _ => 0) 16 (QueueState.initial "n") 1
        none 0).1 0 "c" 35).1.pendingAcks =
      [("c:n:0:0", ⟨"n:0:0", 0, 1, 0, 1, false, 35⟩)] ∧
    ((36 : Int) - ((⟨"n:0:0", 0, 1, 0, 1, false, 35⟩ : Message).deliveredTs : Int)
      < 30) ∧
    (checkRedeliveryStep (consume (produce [] (fun _ => 0) (fun _ => 0) 16
        (QueueState.initial "n") 1 none 0).1 0 "c" 35).1 36).pendingAcks = [] ∧
    (checkRedeliveryStep (consume (produce [] (fun _ => 0) (fun _ => 0) 16
        (QueueState.initial "n") 1 none 0).1 0 "c" 35).1 36).partitions 0 =
      [⟨"n:0:0", 0, 1, 0, 1, false, 35⟩] := by
  decide

/-- Witness for `redeliverySpec`: the single stale pending ack of the
fixture is dropped by the scan. -/
theorem redeliverySpec_witness :
    (checkRedeliveryStep queueFixture 100).pendingAcks = [] := by
  have h := redeliverySpec queueFixture 100 (by decide)
  exact h.1.trans (by decide)

end Spec2Proof
